import Mathlib

/-!
Shallow embedding of the chunking core of the `keats_scraper` repository
(`processors/chunker.py`, `models/chunk.py`, `models/document.py`) and proofs
of the specification's claims about it.

Text is modelled as `List Char` (Python `str` restricted to the ASCII
whitespace classes; the token counter is the repository's word-count fallback
strategy, i.e. `len(text.split())`).  Offsets are `Int` because Python's
`str.find` returns `-1` on failure.
-/

namespace KeatsChunker

/-- ASCII whitespace, the common core of Python's `str.isspace` and the regex
class `\s` (`' '`, `'\t'`, `'\n'`, `'\r'`, `'\x0b'`, `'\x0c'`). -/
def isSpace (c : Char) : Bool :=
  c = ' ' ∨ c = '\t' ∨ c = '\n' ∨ c = '\r' ∨ c = '\x0b' ∨ c = '\x0c'

/-- The non-whitespace characters of a text, in order.  Two texts are equal
"modulo whitespace normalization" when their `nws` images coincide. -/
def nws (s : List Char) : List Char := s.filter (fun c => !(isSpace c))

/-- Python `str.strip()`: remove leading and trailing whitespace. -/
def strip (s : List Char) : List Char :=
  ((s.dropWhile isSpace).reverse.dropWhile isSpace).reverse

/-- Helper for `pyWords`: `acc` holds the reversed characters of the word
currently being read. -/
def wordsAux (acc : List Char) : List Char → List (List Char)
  | [] => if acc = [] then [] else [acc.reverse]
  | c :: rest =>
    if isSpace c then
      if acc = [] then wordsAux [] rest else acc.reverse :: wordsAux [] rest
    else wordsAux (c :: acc) rest

/-- Python `str.split()` with no arguments: the maximal runs of
non-whitespace characters, with no empty strings. -/
def pyWords (s : List Char) : List (List Char) := wordsAux [] s

/-- `Chunker._count_tokens` in the word-count fallback strategy:
`len(text.split())`. -/
def countTokens (s : List Char) : Nat := (pyWords s).length

/-- Python `sep.join(parts)`. -/
def joinSep (sep : List Char) : List (List Char) → List Char
  | [] => []
  | [x] => x
  | x :: y :: rest => x ++ sep ++ joinSep sep (y :: rest)

/-- `"\n\n".join(fragments)`, the paragraph separator join used by the
splitter. -/
def joinFrag (l : List (List Char)) : List Char := joinSep ['\n', '\n'] l

/-- Python `text.find(sub, start)`: the least index `i ≥ start` (with a
negative `start` counted from the end and clamped at `0`) such that `sub`
occurs at `i`, or `-1` when there is none. -/
def pyFind (text sub : List Char) (start : Int) : Int :=
  let s0 : Nat := if start < 0 then ((text.length : Int) + start).toNat else start.toNat
  match (List.range (text.length + 1 - s0)).find? (fun d => sub.isPrefixOf (text.drop (s0 + d))) with
  | some d => ((s0 + d : Nat) : Int)
  | none => -1

/-- State machine for `re.split(r"\n\n+", text)`: `acc` holds the reversed
characters of the piece being read, `pending` counts the newline run seen so
far.  A run of two or more newlines is a (maximal, discarded) separator; a
single newline stays inside the piece. -/
def spAux (acc : List Char) (pending : Nat) : List Char → List (List Char)
  | [] =>
    if 2 ≤ pending then [acc.reverse, []]
    else [acc.reverse ++ List.replicate pending '\n']
  | c :: rest =>
    if c = '\n' then spAux acc (pending + 1) rest
    else if 2 ≤ pending then acc.reverse :: spAux [c] 0 rest
    else spAux (c :: (List.replicate pending '\n' ++ acc)) 0 rest

/-- `re.split(r"\n\n+", text)`: split on blank-line boundaries. -/
def splitParas (text : List Char) : List (List Char) := spAux [] 0 text

/-- Does the accumulated piece end (i.e. start of its reversal) with a
sentence terminator, for the lookbehind `(?<=[.!?])`? -/
def sentEnd : List Char → Bool
  | [] => false
  | c :: _ => c = '.' ∨ c = '!' ∨ c = '?'

/-- State machine for `re.split(r"(?<=[.!?])\s+", para)`.  When `skipping`
is true we are inside the (maximal) whitespace run of a separator match and
`acc` is `[]`; otherwise `acc` holds the reversed characters of the current
piece.  A split happens at a whitespace character immediately preceded by
`.`, `!` or `?`. -/
def ssAux (skipping : Bool) (acc : List Char) : List Char → List (List Char)
  | [] => if skipping then [[]] else [acc.reverse]
  | c :: rest =>
    if skipping then
      if isSpace c then ssAux true [] rest else ssAux false [c] rest
    else if isSpace c ∧ sentEnd acc then acc.reverse :: ssAux true [] rest
    else ssAux false (c :: acc) rest

/-- `re.split(r"(?<=[.!?])\s+", para)`: split into sentences on `.`/`!`/`?`
followed by whitespace. -/
def splitSents (para : List Char) : List (List Char) := ssAux false [] para

/-! ## Heading extraction: `Chunker._extract_heading_at_position` -/

/-- One attempt of the multiline regex `^(#\x7b1,6\x7d)\s+(.+)$` at a line
start.  Returns `(level, stripped title, rest of the text after the match)`.
The leading `#` run must have length 1–6 (a longer run can never match, since
backtracking always leaves a `#` where `\s` is required) and be followed by
at least one whitespace character.  If the whitespace run extends to the end
of the text, `\s+` backtracks so that `.+` captures the last whitespace
character that is not a newline — provided that character is not the first
of the run; the captured group then strips to the empty title. -/
def lineStartMatch (s : List Char) : Option (Nat × List Char × List Char) :=
  let k := (s.takeWhile (fun c => c = '#')).length
  if 1 ≤ k ∧ k ≤ 6 then
    let r1 := s.drop k
    let ws := r1.takeWhile isSpace
    if ws = [] then none
    else
      let r2 := r1.drop ws.length
      if r2 = [] then
        let trail := (ws.reverse.takeWhile (fun c => c = '\n')).length
        if trail + 2 ≤ ws.length then some (k, [], ws.drop (ws.length - trail))
        else none
      else
        some (k, strip (r2.takeWhile (fun c => c ≠ '\n')),
              r2.dropWhile (fun c => c ≠ '\n'))
  else none

/-- Driver for `re.finditer` with the heading pattern: try a match at each
line start; on success continue after the match (which ends at a line end),
otherwise skip to the next line.  Fuel-based recursion: every step consumes
at least one character, so `length + 1` fuel (see `findHeadings`) is enough
for the result to be the fixpoint. -/
def findHeadAux : Nat → List Char → List (Nat × List Char)
  | 0, _ => []
  | fuel + 1, s =>
    if s = [] then []
    else
      match lineStartMatch s with
      | some (k, t, rem) => (k, t) :: findHeadAux fuel (rem.drop 1)
      | none => findHeadAux fuel ((s.dropWhile (fun c => c ≠ '\n')).drop 1)

/-- All `(level, title)` heading matches of the text, in order. -/
def findHeadings (s : List Char) : List (Nat × List Char) :=
  findHeadAux (s.length + 1) s

/-- One step of the hierarchy-building loop: `hierarchy[level] = title`
followed by deleting every recorded level strictly greater than `level`. -/
def hierStep (f : Nat → Option (List Char)) (ht : Nat × List Char) :
    Nat → Option (List Char) :=
  fun l => if l = ht.1 then some ht.2 else if ht.1 < l then none else f l

/-- The `hierarchy` dict after the loop, read out at the sorted key levels
(all levels produced by `findHeadings` lie in 1–6). -/
def buildHierarchy (hs : List (Nat × List Char)) : List (List Char) :=
  (List.range' 1 6).filterMap (hs.foldl hierStep (fun _ => none))

/-- Python `text[:position]` (a negative position counts from the end and
clamps at `0`). -/
def pyPre (text : List Char) (p : Int) : List Char :=
  if 0 ≤ p then text.take p.toNat
  else text.take ((text.length : Int) + p).toNat

/-- `Chunker._extract_heading_at_position`: heading hierarchy in effect at a
character position. -/
def extractHeadingAtPosition (text : List Char) (position : Int) : List (List Char) :=
  buildHierarchy (findHeadings (pyPre text position))

/-! ## The greedy splitter: `Chunker._split_by_separators` -/

/-- The splitter's mutable loop state: completed segments, the fragments of
the segment under construction, its recorded start offset and its running
token count. -/
structure SState where
  chunks : List (List Char × Int)
  cur : List (List Char)
  curStart : Int
  curLen : Nat
deriving DecidableEq

/-- `if current_chunk: chunks.append(("\n\n".join(current_chunk), current_start))`. -/
def flushChunks (st : SState) : List (List Char × Int) :=
  if st.cur = [] then st.chunks else st.chunks ++ [(joinFrag st.cur, st.curStart)]

/-- Body of the sentence-packing loop.  Note that when a sentence is appended
to an empty accumulator (the `else` arm) the recorded start offset is left
unchanged — exactly as in the source. -/
def processSentence (cs : Nat) (text : List Char) (st : SState) (s0 : List Char) :
    SState :=
  let sentence := strip s0
  let t := countTokens sentence
  if cs < st.curLen + t then
    { chunks := flushChunks st, cur := [sentence],
      curStart := pyFind text sentence st.curStart, curLen := t }
  else
    { st with cur := st.cur ++ [sentence], curLen := st.curLen + t }

/-- Body of the paragraph-packing loop. -/
def processPara (cs : Nat) (text : List Char) (st : SState) (p0 : List Char) :
    SState :=
  let para := strip p0
  if para = [] then st
  else if cs < countTokens para then
    (splitSents para).foldl (processSentence cs text)
      { st with chunks := flushChunks st, cur := [], curLen := 0 }
  else if cs < st.curLen + countTokens para then
    { chunks := flushChunks st, cur := [para],
      curStart := pyFind text para st.curStart, curLen := countTokens para }
  else
    { st with
      cur := st.cur ++ [para],
      curStart := if st.cur = [] then pyFind text para st.curStart else st.curStart,
      curLen := st.curLen + countTokens para }

/-- `Chunker._split_by_separators` (with `cs` the configured `chunk_size`):
returns the list of `(segment_text, start_offset)` pairs. -/
def splitBySeparators (cs : Nat) (text : List Char) : List (List Char × Int) :=
  flushChunks ((splitParas text).foldl (processPara cs text) ⟨[], [], 0, 0⟩)

/-! ## Overlap injection: `Chunker._add_overlap` -/

/-- The overlapped text of a non-first segment: the last `chunk_overlap`
whitespace-delimited words of the previous segment's pre-overlap text (all of
them if there are no more than `chunk_overlap`), joined by single spaces,
wrapped as `"..." + overlap + "\n\n" + text`. -/
def overlapped (n : Nat) (prevText t : List Char) : List Char :=
  let prevWords := pyWords prevText
  let overlapWords :=
    if n < prevWords.length then prevWords.drop (prevWords.length - n) else prevWords
  ['.', '.', '.'] ++ joinSep [' '] overlapWords ++ ['\n', '\n'] ++ t

/-- Tail of the overlap loop: `prevText` is the pre-overlap text of the
immediately preceding segment (taken from the input list, never from an
already-overlapped text). -/
def addOverlapAux (n : Nat) : List Char → List (List Char × Int) → List (List Char × Int)
  | _, [] => []
  | prevText, (t, p) :: rest => (overlapped n prevText t, p) :: addOverlapAux n t rest

/-- `Chunker._add_overlap`: returns the input unchanged when it is empty or
`chunk_overlap` is zero; otherwise the first segment is unchanged and each
later segment gets an overlap from its predecessor's pre-overlap text. -/
def addOverlap (n : Nat) (chunks : List (List Char × Int)) : List (List Char × Int) :=
  if chunks = [] ∨ n = 0 then chunks
  else
    match chunks with
    | [] => []
    | (t, p) :: rest => (t, p) :: addOverlapAux n t rest

/-! ## Data model and assembly: `ChunkConfig`, `Document`, `Chunk`,
`Chunker.chunk_document`, `Chunker.chunk_documents` -/

/-- The chunking options read by the chunker (`config.ChunkConfig`). -/
structure ChunkConfig where
  chunk_size : Nat
  chunk_overlap : Nat
  preserve_headings : Bool
deriving DecidableEq

/-- The document metadata fields the chunker reads (`models/document.py`;
`sectionLabel` models the Python field named `section`). -/
structure DocumentMeta where
  title : String
  source_url : String
  sectionLabel : String
deriving DecidableEq

/-- A document to be chunked (`models/document.py`). -/
structure Document where
  id : String
  content : List Char
  metadata : DocumentMeta
deriving DecidableEq

/-- Chunk metadata (`models/chunk.py`).  The `content_hash` (an MD5 digest of
`text` computed via `hashlib`) and the wall-clock `extraction_date` are not
modelled; no settled claim depends on their values. -/
structure ChunkMetadata where
  source_url : String
  document_id : String
  document_title : String
  sectionLabel : String
  heading_path : List (List Char)
  chunk_index : Nat
  total_chunks_in_doc : Nat
  char_count : Nat
  word_count : Nat
deriving DecidableEq

/-- A produced chunk (`models/chunk.py`). -/
structure Chunk where
  id : String
  text : List Char
  metadata : ChunkMetadata
deriving DecidableEq

/-- `Chunk.create`: derives the id `f"{document_id}_chunk_{chunk_index}"`
(braces denoting Python interpolation) and the character/word counts of the
final text. -/
def Chunk.create (text : List Char) (document_id document_title source_url : String)
    (chunk_index total_chunks : Nat) (sectionLabel : String)
    (heading_path : List (List Char)) : Chunk :=
  { id := document_id ++ "_chunk_" ++ Nat.repr chunk_index,
    text := text,
    metadata :=
      { source_url := source_url,
        document_id := document_id,
        document_title := document_title,
        sectionLabel := sectionLabel,
        heading_path := heading_path,
        chunk_index := chunk_index,
        total_chunks_in_doc := total_chunks,
        char_count := text.length,
        word_count := countTokens text } }

/-- The `for i, (chunk_text, start_pos) in enumerate(chunks_with_overlap)`
loop of `chunk_document`: look up the heading hierarchy at the segment's
start offset, optionally prepend the heading-context line, and create the
chunk record. -/
def buildChunks (cfg : ChunkConfig) (doc : Document) (total : Nat) :
    Nat → List (List Char × Int) → List Chunk
  | _, [] => []
  | i, (ct, sp) :: rest =>
    (let hp := extractHeadingAtPosition doc.content sp
     let ct2 :=
       if cfg.preserve_headings = true ∧ hp ≠ [] then
         "[Context: ".toList ++ joinSep " > ".toList hp ++ "]\n\n".toList ++ ct
       else ct
     Chunk.create ct2 doc.id doc.metadata.title doc.metadata.source_url i total
       doc.metadata.sectionLabel hp)
    :: buildChunks cfg doc total (i + 1) rest

/-- `Chunker.chunk_document`: empty list for empty or whitespace-only content;
otherwise split, add overlap, and assemble the chunk records. -/
def chunkDocument (cfg : ChunkConfig) (doc : Document) : List Chunk :=
  if strip doc.content = [] then []
  else
    let raw := splitBySeparators cfg.chunk_size doc.content
    let wo := addOverlap cfg.chunk_overlap raw
    buildChunks cfg doc wo.length 0 wo

/-- `Chunker.chunk_documents`: the `all_chunks.extend(...)` loop over the
documents in input order. -/
def chunkDocuments (cfg : ChunkConfig) (documents : List Document) : List Chunk :=
  documents.foldl (fun allChunks d => allChunks ++ chunkDocument cfg d) []

/-! ## Specification-side definition for claim C4 -/

/-- Modelled from the spec's words for the heading tracker (C4): looking
backward through the recorded headings (most recent first), the title in
effect at level `l` is the nearest heading at exactly level `l`, unless a
heading at a level strictly smaller than `l` intervenes (which discards
level `l`). -/
def recentAt (l : Nat) : List (Nat × List Char) → Option (List Char)
  | [] => none
  | ht :: rest => if ht.1 = l then some ht.2 else if ht.1 < l then none else recentAt l rest

/-! ## Lemmas about non-whitespace content -/

@[simp] lemma nws_nil : nws [] = [] := rfl

lemma nws_append (a b : List Char) : nws (a ++ b) = nws a ++ nws b := by
  simp [nws, List.filter_append]

lemma nws_reverse (s : List Char) : nws s.reverse = (nws s).reverse := by
  simp [nws, List.filter_reverse]

lemma nws_dropWhile (s : List Char) : nws (s.dropWhile isSpace) = nws s := by
  induction s with
  | nil => rfl
  | cons c rest ih =>
    by_cases h : isSpace c
    · simpa [nws, List.dropWhile, h] using ih
    · simp [nws, List.dropWhile, h]

lemma nws_strip (s : List Char) : nws (strip s) = nws s := by
  unfold strip
  rw [nws_reverse, nws_dropWhile, nws_reverse, List.reverse_reverse, nws_dropWhile]

lemma nws_replicate_newline (n : Nat) : nws (List.replicate n '\n') = [] := by
  induction n with
  | zero => rfl
  | succ k ih => simp [nws, List.replicate, isSpace]

lemma strip_eq_nil_of_space (s : List Char) (h : ∀ c ∈ s, isSpace c) :
    strip s = [] := by
  have h1 : s.dropWhile isSpace = [] := List.dropWhile_eq_nil_iff.mpr h
  simp [strip, h1]

lemma nws_eq_nil_of_strip_eq_nil (s : List Char) (h : strip s = []) : nws s = [] := by
  rw [← nws_strip, h]; rfl

/-! ## Lemmas about word counting -/

lemma wordsAux_append_space (b : List Char) (c : Char) (hc : isSpace c) :
    ∀ (a acc : List Char), wordsAux acc (a ++ c :: b) = wordsAux acc a ++ wordsAux [] b := by
  intro a
  induction a with
  | nil =>
    intro acc
    by_cases h : acc = [] <;> simp [wordsAux, hc, h]
  | cons x a ih =>
    intro acc
    by_cases hx : isSpace x
    · by_cases h : acc = [] <;> simp [wordsAux, hx, h, ih]
    · simp [wordsAux, hx, ih]

lemma pyWords_sep (x y : List Char) (c : Char) (hc : isSpace c) :
    pyWords (x ++ c :: y) = pyWords x ++ pyWords y := by
  simp [pyWords, wordsAux_append_space y c hc]

lemma countTokens_sep (x y : List Char) :
    countTokens (x ++ '\n' :: '\n' :: y) = countTokens x + countTokens y := by
  have h1 : pyWords (x ++ '\n' :: '\n' :: y) = pyWords x ++ pyWords ('\n' :: y) :=
    pyWords_sep x ('\n' :: y) '\n' (by decide)
  have h2 : pyWords ('\n' :: y) = pyWords y := by
    simp [pyWords, wordsAux, isSpace]
  simp [countTokens, h1, h2]

lemma countTokens_joinFrag (l : List (List Char)) :
    countTokens (joinFrag l) = (l.map countTokens).sum := by
  induction l with
  | nil => rfl
  | cons x rest ih =>
    cases rest with
    | nil => simp [joinFrag, joinSep]
    | cons y r =>
      have : joinFrag (x :: y :: r) = x ++ '\n' :: '\n' :: joinFrag (y :: r) := by
        simp [joinFrag, joinSep]
      rw [this, countTokens_sep]
      simpa [joinFrag] using congrArg (fun n => countTokens x + n) ih

lemma nws_joinFrag (l : List (List Char)) :
    nws (joinFrag l) = (l.map nws).flatten := by
  induction l with
  | nil => rfl
  | cons x rest ih =>
    cases rest with
    | nil => simp [joinFrag, joinSep]
    | cons y r =>
      have h : joinFrag (x :: y :: r) = x ++ '\n' :: '\n' :: joinFrag (y :: r) := by
        simp [joinFrag, joinSep]
      have h2 : nws ('\n' :: '\n' :: joinFrag (y :: r)) = nws (joinFrag (y :: r)) := by
        simp [nws, isSpace]
      rw [h, nws_append, h2]
      simpa [joinFrag] using congrArg (fun t => nws x ++ t) ih

lemma nws_cons (c : Char) (s : List Char) : nws (c :: s) = nws [c] ++ nws s := by
  have h := nws_append [c] s
  simpa using h

lemma nws_cons_space (c : Char) (h : isSpace c) (s : List Char) :
    nws (c :: s) = nws s := by
  simp [nws, h]

/-! ## The two splitters preserve non-whitespace content -/

lemma spAux_nws : ∀ (rest acc : List Char) (pending : Nat),
    ((spAux acc pending rest).map nws).flatten = nws acc.reverse ++ nws rest := by
  intro rest
  induction rest with
  | nil =>
    intro acc pending
    by_cases h : 2 ≤ pending
    · simp [spAux, h]
    · simp [spAux, h, nws_append, nws_replicate_newline]
  | cons c rest ih =>
    intro acc pending
    by_cases hc : c = '\n'
    · subst hc
      rw [nws_cons_space '\n' (by decide)]
      simpa [spAux] using ih acc (pending + 1)
    · by_cases hp : 2 ≤ pending
      · rw [nws_cons]
        have h2 := ih [c] 0
        simp [spAux, hc, hp, h2, List.append_assoc]
      · have h3 := ih (c :: (List.replicate pending '\n' ++ acc)) 0
        simp only [List.reverse_cons, List.reverse_append, List.reverse_replicate,
          nws_append, nws_replicate_newline] at h3
        rw [nws_cons]
        simp [spAux, hc, hp, h3, List.append_assoc]

lemma splitParas_nws (text : List Char) :
    ((splitParas text).map nws).flatten = nws text := by
  simpa [splitParas] using spAux_nws text [] 0

lemma ssAux_nws : ∀ (rest : List Char) (skipping : Bool) (acc : List Char),
    (skipping = true → acc = []) →
    ((ssAux skipping acc rest).map nws).flatten = nws acc.reverse ++ nws rest := by
  intro rest
  induction rest with
  | nil =>
    intro skipping acc hsk
    cases skipping
    · simp [ssAux]
    · simp [ssAux, hsk rfl]
  | cons c rest ih =>
    intro skipping acc hsk
    cases skipping
    · by_cases hs : isSpace c ∧ sentEnd acc
      · rw [nws_cons_space c hs.1]
        have h2 := ih true [] (fun _ => rfl)
        simp [ssAux, hs, h2]
      · have h2 := ih false (c :: acc) (by intro h; cases h)
        simp only [List.reverse_cons, nws_append] at h2
        rw [nws_cons]
        simp [ssAux, hs, h2, List.append_assoc]
    · have hacc := hsk rfl
      subst hacc
      by_cases hs : isSpace c
      · rw [nws_cons_space c hs]
        simpa [ssAux, hs] using ih true [] (fun _ => rfl)
      · have h2 := ih false [c] (by intro h; cases h)
        rw [nws_cons]
        simpa [ssAux, hs] using h2

lemma splitSents_nws (q : List Char) :
    ((splitSents q).map nws).flatten = nws q := by
  simpa [splitSents] using ssAux_nws q false [] (by intro h; cases h)

/-! ## The packing loop preserves non-whitespace content (claim C2) -/

/-- The non-whitespace content held by a splitter state: emitted segments
followed by the fragments of the segment under construction. -/
def gval (st : SState) : List Char :=
  (st.chunks.map (fun seg => nws seg.1)).flatten ++ (st.cur.map nws).flatten

lemma gval_flush (st : SState) :
    ((flushChunks st).map (fun seg => nws seg.1)).flatten = gval st := by
  by_cases h : st.cur = []
  · simp [flushChunks, h, gval]
  · simp [flushChunks, h, gval, nws_joinFrag]

lemma gval_processSentence (cs : Nat) (text : List Char) (st : SState) (s0 : List Char) :
    gval (processSentence cs text st s0) = gval st ++ nws (strip s0) := by
  unfold processSentence
  by_cases h : cs < st.curLen + countTokens (strip s0)
  · simp only [h, if_true]
    show ((flushChunks st).map (fun seg => nws seg.1)).flatten ++
        ([strip s0].map nws).flatten = gval st ++ nws (strip s0)
    simp [gval_flush]
  · simp only [h, if_false]
    simp [gval, List.append_assoc]

lemma gval_sentFold (cs : Nat) (text : List Char) :
    ∀ (ss : List (List Char)) (st : SState),
    gval (ss.foldl (processSentence cs text) st)
      = gval st ++ (ss.map (fun s => nws (strip s))).flatten := by
  intro ss
  induction ss with
  | nil => intro st; simp
  | cons s ss ih =>
    intro st
    simp [List.foldl_cons, ih, gval_processSentence, List.append_assoc]

lemma gval_processPara (cs : Nat) (text : List Char) (st : SState) (p0 : List Char) :
    gval (processPara cs text st p0) = gval st ++ nws p0 := by
  unfold processPara
  by_cases h0 : strip p0 = []
  · simp [h0, nws_eq_nil_of_strip_eq_nil p0 h0]
  · simp only [h0, if_false]
    by_cases h1 : cs < countTokens (strip p0)
    · simp only [h1, if_true]
      rw [gval_sentFold]
      have hst1 : gval { st with chunks := flushChunks st, cur := [], curLen := 0 }
          = gval st := by
        show ((flushChunks st).map (fun seg => nws seg.1)).flatten ++ [] = gval st
        simp [gval_flush]
      rw [hst1]
      simp only [nws_strip]
      rw [splitSents_nws, nws_strip]
    · simp only [h1, if_false]
      by_cases h2 : cs < st.curLen + countTokens (strip p0)
      · simp only [h2, if_true]
        show ((flushChunks st).map (fun seg => nws seg.1)).flatten ++
            ([strip p0].map nws).flatten = gval st ++ nws p0
        simp [gval_flush, nws_strip]
      · simp only [h2, if_false]
        simp [gval, List.append_assoc, nws_strip]

lemma gval_paraFold (cs : Nat) (text : List Char) :
    ∀ (l : List (List Char)) (st : SState),
    gval (l.foldl (processPara cs text) st) = gval st ++ (l.map nws).flatten := by
  intro l
  induction l with
  | nil => intro st; simp
  | cons p l ih =>
    intro st
    simp [List.foldl_cons, ih, gval_processPara, List.append_assoc]

/-! ## The packing loop respects the token budget (claim C1) -/

/-- An irreducible oversized unit: the text is a single sentence fragment of
the input (a stripped sentence of a stripped paragraph) whose own token count
alone exceeds the budget. -/
def OverSent (cs : Nat) (text u : List Char) : Prop :=
  ∃ p ∈ splitParas text, ∃ s ∈ splitSents (strip p),
    u = strip s ∧ cs < countTokens u

/-- Budget invariant of the packing loop: every emitted segment is within
budget or an irreducible oversized sentence; the running token count is the
sum of the accumulated fragments' counts; and the accumulator itself is
within budget or a single oversized sentence. -/
def InvC1 (cs : Nat) (text : List Char) (st : SState) : Prop :=
  (∀ seg ∈ st.chunks, countTokens seg.1 ≤ cs ∨ OverSent cs text seg.1) ∧
  st.curLen = (st.cur.map countTokens).sum ∧
  (st.curLen ≤ cs ∨ ∃ u, st.cur = [u] ∧ OverSent cs text u)

lemma flush_ok {cs : Nat} {text : List Char} {st : SState} (h : InvC1 cs text st) :
    ∀ seg ∈ flushChunks st, countTokens seg.1 ≤ cs ∨ OverSent cs text seg.1 := by
  intro seg hseg
  by_cases hc : st.cur = []
  · exact h.1 seg (by simpa [flushChunks, hc] using hseg)
  · rw [flushChunks, if_neg hc] at hseg
    rcases List.mem_append.mp hseg with hl | hr
    · exact h.1 seg hl
    · have hseg2 : seg = (joinFrag st.cur, st.curStart) := by simpa using hr
      subst hseg2
      rcases h.2.2 with hle | ⟨u, hu, hov⟩
      · left
        calc countTokens (joinFrag st.cur) = (st.cur.map countTokens).sum :=
              countTokens_joinFrag st.cur
          _ = st.curLen := h.2.1.symm
          _ ≤ cs := hle
      · right
        have : joinFrag st.cur = u := by simp [hu, joinFrag, joinSep]
        simpa [this] using hov

lemma invC1_processSentence {cs : Nat} {text p : List Char} {st : SState}
    (hp : p ∈ splitParas text) {s0 : List Char} (hs : s0 ∈ splitSents (strip p))
    (h : InvC1 cs text st) : InvC1 cs text (processSentence cs text st s0) := by
  unfold processSentence
  by_cases hgt : cs < st.curLen + countTokens (strip s0)
  · rw [if_pos hgt]
    refine ⟨flush_ok h, by simp, ?_⟩
    by_cases hle : countTokens (strip s0) ≤ cs
    · exact Or.inl hle
    · exact Or.inr ⟨strip s0, rfl, ⟨p, hp, s0, hs, rfl, Nat.lt_of_not_le hle⟩⟩
  · rw [if_neg hgt]
    refine ⟨h.1, by simp [h.2.1], Or.inl (Nat.le_of_not_lt hgt)⟩

lemma invC1_sentFold {cs : Nat} {text p : List Char} (hp : p ∈ splitParas text) :
    ∀ (ss : List (List Char)), (∀ s ∈ ss, s ∈ splitSents (strip p)) →
    ∀ (st : SState), InvC1 cs text st →
    InvC1 cs text (ss.foldl (processSentence cs text) st) := by
  intro ss
  induction ss with
  | nil => intro _ st h; exact h
  | cons s ss ih =>
    intro hmem st h
    exact ih (fun x hx => hmem x (List.mem_cons_of_mem s hx))
      _ (invC1_processSentence hp (hmem s (List.mem_cons_self s ss)) h)

lemma invC1_processPara {cs : Nat} {text : List Char} {st : SState}
    {p0 : List Char} (hp : p0 ∈ splitParas text) (h : InvC1 cs text st) :
    InvC1 cs text (processPara cs text st p0) := by
  unfold processPara
  by_cases h0 : strip p0 = []
  · rw [if_pos h0]; exact h
  · rw [if_neg h0]
    by_cases h1 : cs < countTokens (strip p0)
    · rw [if_pos h1]
      refine invC1_sentFold hp (splitSents (strip p0)) (fun _ hx => hx) _ ?_
      exact ⟨flush_ok h, by simp, Or.inl (Nat.zero_le cs)⟩
    · rw [if_neg h1]
      by_cases h2 : cs < st.curLen + countTokens (strip p0)
      · rw [if_pos h2]
        exact ⟨flush_ok h, by simp, Or.inl (Nat.le_of_not_lt h1)⟩
      · rw [if_neg h2]
        exact ⟨h.1, by simp [h.2.1], Or.inl (Nat.le_of_not_lt h2)⟩

lemma invC1_paraFold {cs : Nat} {text : List Char} :
    ∀ (l : List (List Char)), (∀ pp ∈ l, pp ∈ splitParas text) →
    ∀ (st : SState), InvC1 cs text st →
    InvC1 cs text (l.foldl (processPara cs text) st) := by
  intro l
  induction l with
  | nil => intro _ st h; exact h
  | cons p l ih =>
    intro hmem st h
    exact ih (fun x hx => hmem x (List.mem_cons_of_mem p hx))
      _ (invC1_processPara (hmem p (List.mem_cons_self p l)) h)

/-! ## Lemmas about the overlap injector -/

lemma addOverlap_headOpt (n : Nat) (chunks : List (List Char × Int)) :
    (addOverlap n chunks).head? = chunks.head? := by
  unfold addOverlap
  by_cases h : chunks = [] ∨ n = 0
  · rw [if_pos h]
  · rw [if_neg h]
    cases chunks with
    | nil => rfl
    | cons x rest => rfl

@[simp] lemma addOverlapAux_nil (n : Nat) (prev : List Char) :
    addOverlapAux n prev [] = [] := rfl

@[simp] lemma addOverlapAux_cons (n : Nat) (prev : List Char)
    (x : List Char × Int) (rest : List (List Char × Int)) :
    addOverlapAux n prev (x :: rest)
      = (overlapped n prev x.1, x.2) :: addOverlapAux n x.1 rest := by
  cases x; rfl

lemma addOverlap_cons (n : Nat) (x : List Char × Int)
    (rest : List (List Char × Int)) (h : ¬(x :: rest = [] ∨ n = 0)) :
    addOverlap n (x :: rest) = x :: addOverlapAux n x.1 rest := by
  cases x
  unfold addOverlap
  rw [if_neg h]

lemma addOverlapAux_length (n : Nat) :
    ∀ (l : List (List Char × Int)) (prev : List Char),
    (addOverlapAux n prev l).length = l.length := by
  intro l
  induction l with
  | nil => intro prev; rfl
  | cons x rest ih => intro prev; simp [ih]

lemma addOverlapAux_snd (n : Nat) :
    ∀ (l : List (List Char × Int)) (prev : List Char) (i : Nat),
    ((addOverlapAux n prev l)[i]?).map Prod.snd = (l[i]?).map Prod.snd := by
  intro l
  induction l with
  | nil => intro prev i; rfl
  | cons x rest ih =>
    intro prev i
    cases i with
    | zero => simp
    | succ j => simpa using ih x.1 j

lemma addOverlapAux_get_zero (n : Nat) (prev : List Char)
    (l : List (List Char × Int)) (cur : List Char × Int) (h : l[0]? = some cur) :
    (addOverlapAux n prev l)[0]? = some (overlapped n prev cur.1, cur.2) := by
  cases l with
  | nil => cases h
  | cons x rest =>
    have hx : x = cur := by simpa using h
    rw [← hx]
    simp

lemma addOverlapAux_get_succ (n : Nat) :
    ∀ (l : List (List Char × Int)) (prev : List Char) (i : Nat)
      (pr cur : List Char × Int), l[i]? = some pr → l[i + 1]? = some cur →
    (addOverlapAux n prev l)[i + 1]? = some (overlapped n pr.1 cur.1, cur.2) := by
  intro l
  induction l with
  | nil => intro prev i pr cur h1 _; cases h1
  | cons x rest ih =>
    intro prev i pr cur h1 h2
    cases i with
    | zero =>
      have hx : x = pr := by simpa using h1
      have h0 : rest[0]? = some cur := by simpa using h2
      rw [← hx] at *
      simpa using addOverlapAux_get_zero n x.1 rest cur h0
    | succ j =>
      have h1' : rest[j]? = some pr := by simpa using h1
      have h2' : rest[j + 1]? = some cur := by simpa using h2
      simpa using ih x.1 j pr cur h1' h2'

lemma addOverlap_length (n : Nat) (chunks : List (List Char × Int)) :
    (addOverlap n chunks).length = chunks.length := by
  by_cases h : chunks = [] ∨ n = 0
  · unfold addOverlap; rw [if_pos h]
  · cases chunks with
    | nil => rfl
    | cons x rest => simp [addOverlap_cons n x rest h, addOverlapAux_length]

lemma addOverlap_snd (n : Nat) (chunks : List (List Char × Int)) (i : Nat) :
    ((addOverlap n chunks)[i]?).map Prod.snd = (chunks[i]?).map Prod.snd := by
  by_cases h : chunks = [] ∨ n = 0
  · unfold addOverlap; rw [if_pos h]
  · cases chunks with
    | nil => rfl
    | cons x rest =>
      rw [addOverlap_cons n x rest h]
      cases i with
      | zero => simp
      | succ j => simpa using addOverlapAux_snd n rest x.1 j

lemma addOverlap_fst (n : Nat) (hn : 0 < n) (chunks : List (List Char × Int))
    (i : Nat) (pr cur : List Char × Int)
    (h1 : chunks[i]? = some pr) (h2 : chunks[i + 1]? = some cur) :
    (addOverlap n chunks)[i + 1]? = some (overlapped n pr.1 cur.1, cur.2) := by
  have hne : ¬(chunks = [] ∨ n = 0) := by
    rintro (hc | hc)
    · subst hc; cases h1
    · omega
  cases chunks with
  | nil => cases h1
  | cons x rest =>
    rw [addOverlap_cons n x rest hne]
    cases i with
    | zero =>
      have hx : x = pr := by simpa using h1
      have h0 : rest[0]? = some cur := by simpa using h2
      rw [← hx]
      simpa using addOverlapAux_get_zero n x.1 rest cur h0
    | succ j =>
      have h1' : rest[j]? = some pr := by simpa using h1
      have h2' : rest[j + 1]? = some cur := by simpa using h2
      simpa using addOverlapAux_get_succ n rest x.1 j pr cur h1' h2'

/-! ## Lemmas about chunk assembly -/

lemma buildChunks_length (cfg : ChunkConfig) (doc : Document) (total : Nat) :
    ∀ (l : List (List Char × Int)) (i0 : Nat),
    (buildChunks cfg doc total i0 l).length = l.length := by
  intro l
  induction l with
  | nil => intro i0; rfl
  | cons x rest ih =>
    intro i0
    cases x with
    | mk ct sp => simp [buildChunks, ih]

lemma buildChunks_get (cfg : ChunkConfig) (doc : Document) (total : Nat) :
    ∀ (l : List (List Char × Int)) (i0 i : Nat) (c : Chunk),
    (buildChunks cfg doc total i0 l)[i]? = some c →
    c.metadata.chunk_index = i0 + i ∧ c.metadata.total_chunks_in_doc = total ∧
      c.id = doc.id ++ "_chunk_" ++ Nat.repr (i0 + i) := by
  intro l
  induction l with
  | nil => intro i0 i c h; cases h
  | cons x rest ih =>
    intro i0 i c h
    cases x with
    | mk ct sp =>
      cases i with
      | zero =>
        rw [buildChunks] at h
        simp only [List.getElem?_cons_zero, Option.some.injEq] at h
        rw [← h]
        refine ⟨by simp [Chunk.create], by simp [Chunk.create], by simp [Chunk.create]⟩
      | succ j =>
        rw [buildChunks] at h
        have h' : (buildChunks cfg doc total (i0 + 1) rest)[j]? = some c := by
          simpa using h
        have := ih (i0 + 1) j c h'
        refine ⟨?_, this.2.1, ?_⟩
        · rw [this.1]; omega
        · rw [this.2.2]
          congr 2
          omega

/-! ## Heading hierarchy: the dict-with-reset loop equals the spec's
most-recent-per-level reading (claim C4) -/

lemma hier_eq (hs : List (Nat × List Char)) (l : Nat) :
    hs.foldl hierStep (fun _ => none) l = recentAt l hs.reverse := by
  induction hs using List.reverseRecOn with
  | nil => rfl
  | append_singleton hs x ih =>
    rw [List.foldl_append, List.reverse_append]
    show hierStep (hs.foldl hierStep (fun _ => none)) x l = recentAt l ([x] ++ hs.reverse)
    rw [hierStep, recentAt.eq_def]
    simp only [List.singleton_append]
    by_cases he : x.1 = l
    · simp [he]
    · have he' : ¬ l = x.1 := fun h => he h.symm
      rw [if_neg he', if_neg he]
      by_cases hlt : x.1 < l
      · rw [if_pos hlt, if_pos hlt]
      · rw [if_neg hlt, if_neg hlt]
        exact ih

/-! ## Concrete inputs used by witnesses and counterexamples -/

/-- Example document metadata shared by the concrete documents below. -/
def exMeta : DocumentMeta := { title := "T", source_url := "u", sectionLabel := "s" }

/-- A document whose two paragraphs of four words each split into two chunks
at `chunk_size = 4`. -/
def exDoc7 : Document := { id := "d7", content := "a b c d\n\ne f g h".toList, metadata := exMeta }

/-- The configuration used with `exDoc7`. -/
def exCfg7 : ChunkConfig := { chunk_size := 4, chunk_overlap := 0, preserve_headings := true }

/-- The second chunk produced by `chunkDocument exCfg7 exDoc7`. -/
def exChunk7 : Chunk :=
  { id := "d7_chunk_1",
    text := "e f g h".toList,
    metadata :=
      { source_url := "u", document_id := "d7", document_title := "T",
        sectionLabel := "s", heading_path := [], chunk_index := 1,
        total_chunks_in_doc := 2, char_count := 7, word_count := 4 } }

/-- Two segments used to exercise the overlap injector (spec Scenario B). -/
def exSegs : List (List Char × Int) :=
  [("one two three four five six".toList, 0), ("next chunk content".toList, 30)]

/-! ## The claims -/

/-- C1: for every input text and positive token budget, no segment produced
by the paragraph splitter has a pre-overlap token count (word-count strategy)
exceeding `chunk_size`, except a segment consisting of a single sentence
fragment whose own token count alone exceeds `chunk_size`. -/
theorem c1_budget (cs : Nat) (text : List Char) (_hcs : 0 < cs)
    (seg : List Char × Int) (hseg : seg ∈ splitBySeparators cs text) :
    countTokens seg.1 ≤ cs ∨
      ∃ p ∈ splitParas text, ∃ s ∈ splitSents (strip p),
        seg.1 = strip s ∧ cs < countTokens seg.1 := by
  have hInv : InvC1 cs text
      ((splitParas text).foldl (processPara cs text) ⟨[], [], 0, 0⟩) :=
    invC1_paraFold (splitParas text) (fun _ hx => hx) _
      ⟨by simp, by simp, Or.inl (Nat.zero_le cs)⟩
  exact flush_ok hInv seg hseg

theorem c1_budget_witness :
    countTokens ("A B C".toList, (0 : Int)).1 ≤ 3 ∨
      ∃ p ∈ splitParas ("A B C\n\nd e. f g.".toList),
        ∃ s ∈ splitSents (strip p),
          ("A B C".toList, (0 : Int)).1 = strip s ∧
            3 < countTokens ("A B C".toList, (0 : Int)).1 :=
  c1_budget 3 ("A B C\n\nd e. f g.".toList) (by decide)
    ("A B C".toList, (0 : Int)) (by decide)

/-- C2: for every non-empty document content, concatenating the raw
(pre-overlap, pre-heading-context) segment texts with the paragraph separator
reconstructs the original text modulo whitespace: the non-whitespace
character sequences coincide, so every non-whitespace character appears in
exactly one segment, in order. -/
theorem c2_coverage (cs : Nat) (text : List Char) (_hne : text ≠ []) :
    nws (joinFrag ((splitBySeparators cs text).map Prod.fst)) = nws text := by
  have h1 : ((splitBySeparators cs text).map (fun seg => nws seg.1)).flatten
      = nws text := by
    unfold splitBySeparators
    rw [gval_flush, gval_paraFold cs text (splitParas text) ⟨[], [], 0, 0⟩]
    have h0 : gval ⟨[], [], 0, 0⟩ = [] := rfl
    rw [h0, splitParas_nws]
    rfl
  rw [nws_joinFrag, List.map_map]
  exact h1

theorem c2_coverage_witness :
    nws (joinFrag ((splitBySeparators 3 ("A B C\n\nd e. f g.".toList)).map Prod.fst))
      = nws ("A B C\n\nd e. f g.".toList) :=
  c2_coverage 3 ("A B C\n\nd e. f g.".toList) (by decide)

/-- C3 (evaluation of the code at the failing input): with budget 3 and text
`"A B C\n\nd e. f g."`, the second emitted segment is `"d e."` with recorded
start offset `0` — the stale offset of the previous segment — although the
first occurrence of its first fragment searched from the previously recorded
offset is at index `7`.  The sentence-packing branch that appends a sentence
to an empty accumulator never records the new segment's start. -/
theorem c3_stale_offset_eval :
    splitBySeparators 3 ("A B C\n\nd e. f g.".toList)
      = [("A B C".toList, 0), ("d e.".toList, 0), ("f g.".toList, 12)]
    ∧ pyFind ("A B C\n\nd e. f g.".toList) ("d e.".toList) 0 = 7 := by
  decide

/-- C4: `headings_before` returns, ordered by ascending level, the
most-recent title recorded for each level among the ATX headings of the text
strictly before the offset, where a heading at level L discards all recorded
levels strictly greater than L (formalised by reading the heading list
backwards: `recentAt`).  On `"# A\n\n## B\n\n# C\n\nbody"` at the offset of
`"body"` (16) it returns exactly `["C"]`, and at the offset of `"# C"` (11)
— a heading starting exactly at the offset — it returns `["A", "B"]`,
excluding that heading. -/
theorem c4_heading_hierarchy (text : List Char) (offset : Int) :
    extractHeadingAtPosition text offset
      = (List.range' 1 6).filterMap
          (fun l => recentAt l (findHeadings (pyPre text offset)).reverse)
    ∧ extractHeadingAtPosition ("# A\n\n## B\n\n# C\n\nbody".toList) 16
        = ["C".toList]
    ∧ extractHeadingAtPosition ("# A\n\n## B\n\n# C\n\nbody".toList) 11
        = ["A".toList, "B".toList] := by
  refine ⟨?_, by decide, by decide⟩
  unfold extractHeadingAtPosition buildHierarchy
  rw [show (findHeadings (pyPre text offset)).foldl hierStep (fun _ => none)
        = fun l => recentAt l (findHeadings (pyPre text offset)).reverse from
      funext (fun l => hier_eq (findHeadings (pyPre text offset)) l)]

/-- C5 counterexample: the claim "the first chunk of any document never
begins with `...`" fails when the document's own content begins with `...`:
here the single chunk has `chunk_index` 0 and its final text starts with the
three characters `...`. -/
theorem c5_counterexample :
    ((chunkDocument { chunk_size := 512, chunk_overlap := 50, preserve_headings := true }
        { id := "dots", content := "...hello world".toList, metadata := exMeta }).map
      (fun c => (c.metadata.chunk_index, c.text.take 3)))
      = [(0, ['.', '.', '.'])] := by
  decide

/-- C5 amended: the overlap injector never modifies the first segment, so
the first chunk of a document never begins with `"..."` unless the
document's own first pre-overlap segment text already begins with `"..."`. -/
theorem c5_first_chunk (cfg : ChunkConfig) (doc : Document)
    (hs : ∀ s, (splitBySeparators cfg.chunk_size doc.content).head? = some s →
      s.1.take 3 ≠ ['.', '.', '.']) :
    ((chunkDocument cfg doc).head?.map (fun c => c.text.take 3))
      ≠ some ['.', '.', '.'] := by
  by_cases h0 : strip doc.content = []
  · unfold chunkDocument
    rw [if_pos h0]; simp
  · have hres : chunkDocument cfg doc
        = buildChunks cfg doc
            (addOverlap cfg.chunk_overlap (splitBySeparators cfg.chunk_size doc.content)).length 0
            (addOverlap cfg.chunk_overlap (splitBySeparators cfg.chunk_size doc.content)) := by
      unfold chunkDocument
      rw [if_neg h0]
    rw [hres]
    have hhead := addOverlap_headOpt cfg.chunk_overlap
      (splitBySeparators cfg.chunk_size doc.content)
    cases hwo : addOverlap cfg.chunk_overlap (splitBySeparators cfg.chunk_size doc.content) with
    | nil => simp [buildChunks]
    | cons x rest =>
      rw [hwo] at hhead
      have hx : (splitBySeparators cfg.chunk_size doc.content).head? = some x := by
        simpa using hhead.symm
      have hx3 := hs x hx
      cases x with
      | mk ct sp =>
        rw [buildChunks]
        simp only [List.head?_cons, Option.map_some]
        intro hcontra
        have htext := Option.some.inj hcontra
        simp only [Chunk.create] at htext
        by_cases hctx : cfg.preserve_headings = true ∧
            extractHeadingAtPosition doc.content sp ≠ []
        · rw [if_pos hctx] at htext
          have hco : ("[Context: ".toList
              ++ joinSep " > ".toList (extractHeadingAtPosition doc.content sp)
              ++ "]\n\n".toList ++ ct).take 3 = ['[', 'C', 'o'] := rfl
          rw [hco] at htext
          exact absurd htext (by decide)
        · rw [if_neg hctx] at htext
          exact hx3 htext

theorem c5_first_chunk_witness :
    ((chunkDocument exCfg7 exDoc7).head?.map (fun c => c.text.take 3))
      ≠ some ['.', '.', '.'] :=
  c5_first_chunk exCfg7 exDoc7 (by decide)

/-- C6: the overlap injector preserves length and offsets; with zero overlap
or an empty list it returns the input unchanged; and each later segment's
text becomes `"..."`, then the final `overlap_size` whitespace-delimited
words of the immediately preceding segment's pre-overlap text (all of them
if it has no more than `overlap_size`), then `"\n\n"` and the segment's own
text — so overlap never compounds. -/
theorem c6_overlap (n : Nat) (chunks : List (List Char × Int)) :
    (addOverlap n chunks).length = chunks.length
    ∧ (∀ i : Nat, ((addOverlap n chunks)[i]?).map Prod.snd
        = (chunks[i]?).map Prod.snd)
    ∧ ((n = 0 ∨ chunks = []) → addOverlap n chunks = chunks)
    ∧ (0 < n → ∀ (i : Nat) (pr cur : List Char × Int),
        chunks[i]? = some pr → chunks[i + 1]? = some cur →
        (addOverlap n chunks)[i + 1]?
          = some (['.', '.', '.']
              ++ joinSep [' ']
                  (if n < (pyWords pr.1).length then
                    (pyWords pr.1).drop ((pyWords pr.1).length - n)
                  else pyWords pr.1)
              ++ '\n' :: '\n' :: cur.1, cur.2)) := by
  refine ⟨addOverlap_length n chunks, addOverlap_snd n chunks, ?_, ?_⟩
  · intro h
    unfold addOverlap
    rw [if_pos (Or.symm h)]
  · intro hn i pr cur h1 h2
    have h := addOverlap_fst n hn chunks i pr cur h1 h2
    rw [h]
    simp only [overlapped, List.append_assoc, List.cons_append, List.nil_append]

theorem c6_overlap_witness :
    (addOverlap 3 exSegs)[1]? = some ("...four five six\n\nnext chunk content".toList, 30)
    ∧ addOverlap 0 exSegs = exSegs := by
  constructor
  · have h := (c6_overlap 3 exSegs).2.2.2 (by decide) 0
      ("one two three four five six".toList, 0) ("next chunk content".toList, 30)
      (by decide) (by decide)
    rw [h]
    decide
  · exact (c6_overlap 0 exSegs).2.2.1 (Or.inl rfl)

/-- C7: each chunk of a document carries `chunk_index` equal to its position,
`total_chunks_in_doc` equal to the number of chunks produced for that
document, and the deterministic id `document_id ++ "_chunk_" ++ index`. -/
theorem c7_chunk_identity (cfg : ChunkConfig) (doc : Document) (i : Nat) (c : Chunk)
    (h : (chunkDocument cfg doc)[i]? = some c) :
    c.metadata.chunk_index = i
    ∧ c.metadata.total_chunks_in_doc = (chunkDocument cfg doc).length
    ∧ c.id = doc.id ++ "_chunk_" ++ Nat.repr i := by
  unfold chunkDocument at h ⊢
  by_cases h0 : strip doc.content = []
  · rw [if_pos h0] at h; cases h
  · rw [if_neg h0] at h ⊢
    have hb := buildChunks_get cfg doc _ _ 0 i c h
    refine ⟨by simpa using hb.1, ?_, by simpa using hb.2.2⟩
    rw [buildChunks_length]
    simpa using hb.2.1

theorem c7_chunk_identity_witness :
    exChunk7.metadata.chunk_index = 1
    ∧ exChunk7.metadata.total_chunks_in_doc = (chunkDocument exCfg7 exDoc7).length
    ∧ exChunk7.id = exDoc7.id ++ "_chunk_" ++ Nat.repr 1 :=
  c7_chunk_identity exCfg7 exDoc7 1 exChunk7 (by decide)

/-- C9: a document whose content is empty or consists only of whitespace
yields an empty chunk list (and `chunkDocument`, a total function, raises no
error). -/
theorem c9_empty_content (cfg : ChunkConfig) (doc : Document)
    (h : ∀ ch ∈ doc.content, isSpace ch) : chunkDocument cfg doc = [] := by
  unfold chunkDocument
  rw [if_pos (strip_eq_nil_of_space doc.content h)]

theorem c9_empty_content_witness :
    chunkDocument exCfg7 { id := "ws", content := "   \n\n  ".toList, metadata := exMeta }
      = [] :=
  c9_empty_content exCfg7 _ (by decide)

/-- C10: chunking a batch returns exactly the concatenation of
`chunkDocument` applied to each document in input order, so each document's
chunks are unaffected by the other documents in the batch. -/
theorem c10_batch (cfg : ChunkConfig) (documents : List Document) :
    chunkDocuments cfg documents = (documents.map (chunkDocument cfg)).flatten := by
  suffices h : ∀ acc : List Chunk,
      documents.foldl (fun a d => a ++ chunkDocument cfg d) acc
        = acc ++ (documents.map (chunkDocument cfg)).flatten by
    simpa [chunkDocuments] using h []
  induction documents with
  | nil => intro acc; simp
  | cons d ds ih => intro acc; simp [List.foldl_cons, ih, List.append_assoc]

end KeatsChunker
